import Mathlib

set_option maxRecDepth 40000

/-! Shallow embedding of the chat backend's core message-processing logic:
the deterministic fill-intent extractor, the model-output action-tag parser,
the reconciler, the history normalizer and the error path, translated from
the JavaScript sources (the main service file and the legacy
services/geminiService.js). Text is modeled as `List Char`; each JavaScript
regular-expression scan is modeled by an explicit left-to-right scanner that
reproduces the concrete pattern's matching behavior. -/

/-! ## Character classes and basic string helpers -/

/-- JavaScript whitespace: the character set matched by the regex class \s
and removed by String.prototype.trim (ASCII whitespace plus the Unicode
space separators, NBSP, BOM and line/paragraph separators). -/
def isSpaceJS (c : Char) : Bool :=
  c = ' ' || c = '\t' || c = '\n' || c = '\r' ||
  c.toNat = 0x0b || c.toNat = 0x0c ||
  c.toNat = 0xa0 || c.toNat = 0x1680 ||
  (Nat.ble 0x2000 c.toNat && Nat.ble c.toNat 0x200a) ||
  c.toNat = 0x2028 || c.toNat = 0x2029 || c.toNat = 0x202f ||
  c.toNat = 0x205f || c.toNat = 0x3000 || c.toNat = 0xfeff

/-- JavaScript word character, the regex class \w = [A-Za-z0-9_];
used for the word boundary \b at the start of the fill trigger. -/
def isWordChar (c : Char) : Bool :=
  (c.toNat ≥ 0x41 && c.toNat ≤ 0x5a) || (c.toNat ≥ 0x61 && c.toNat ≤ 0x7a) ||
  c.isDigit || c = '_'

/-- Character class [a-zA-Z0-9_-] of the scroll_to_section / scroll_page
tag captures. -/
def isIdChar (c : Char) : Bool :=
  (c.toNat ≥ 0x41 && c.toNat ≤ 0x5a) || (c.toNat ≥ 0x61 && c.toNat ≤ 0x7a) ||
  c.isDigit || c = '_' || c = '-'

/-- The regex metacharacter `.` without the s flag: any character except the
line terminators \n, \r, U+2028, U+2029. -/
def isDotChar (c : Char) : Bool :=
  !(c = '\n' || c = '\r' || c.toNat = 0x2028 || c.toNat = 0x2029)

/-- ASCII lowercasing, modeling String.prototype.toLowerCase and the
case-insensitive regex flag on the ASCII inputs that the scanned keywords
and allow-lists consist of. -/
def toLowerCh (c : Char) : Char :=
  if c.toNat ≥ 0x41 ∧ c.toNat ≤ 0x5a then Char.ofNat (c.toNat + 32) else c

/-- Lowercase a char list (String.prototype.toLowerCase on ASCII). -/
def toLowerList (l : List Char) : List Char := l.map toLowerCh

/-- JavaScript String.prototype.trim on char lists. -/
def trimJS (l : List Char) : List Char :=
  ((l.dropWhile isSpaceJS).reverse.dropWhile isSpaceJS).reverse

/-- Case-insensitive literal match: if `s` starts (after lowercasing) with
the lowercase pattern `pat`, return the rest of `s`. -/
def matchCI (pat s : List Char) : Option (List Char) :=
  if toLowerList (s.take pat.length) = pat then some (s.drop pat.length) else none

/-- Array.prototype.join with a separator. -/
def joinSep (sep : List Char) : List (List Char) → List Char
  | [] => []
  | [x] => x
  | x :: y :: rest => x ++ sep ++ joinSep sep (y :: rest)

/-- Substring test (String.prototype.includes). -/
def containsSub (hay needle : List Char) : Bool :=
  (List.range (hay.length + 1)).any (fun i => needle.isPrefixOf (hay.drop i))

/-! ## Deterministic Intent Extractor (parseFillFromUser)

The regex is
`\b(?:fill|add|set)\s+(name|email|message|search)\s*(?:field)?\s*(?:as|to|=)?\s*`
with flags g and i, driven by repeated exec; every optional/star element after
the capture can match the empty string, so the greedy scan below (maximal
whitespace runs, "field" / "as" / "to" / "=" taken when present) is exactly
the backtracking regex's behavior. -/

/-- A fill intent: a (field, value) pair. -/
structure FillIntent where
  field : List Char
  value : List Char
deriving DecidableEq

/-- One regex match of the trigger: the captured field (lowercased),
`m.index`, and `re.lastIndex` after the match (start of the value span). -/
structure TrigHit where
  field : List Char
  matchIndex : Nat
  valueStart : Nat
deriving DecidableEq

/-- The word boundary \b before the trigger word: satisfied when there is no
previous character or the previous character is not a word character (the
trigger word itself always begins with a word character). -/
def boundaryOK : Option Char → Bool
  | none => true
  | some c => !isWordChar c

/-- `(?:fill|add|set)` case-insensitively. -/
def matchTriggerWord (s : List Char) : Option (List Char) :=
  (matchCI ("fill".data) s).orElse fun _ =>
    (matchCI ("add".data) s).orElse fun _ => matchCI ("set".data) s

/-- `(name|email|message|search)` case-insensitively, returning the
lowercased capture and the rest. -/
def matchFieldWord (s : List Char) : Option (List Char × List Char) :=
  match matchCI ("name".data) s with
  | some r => some (("name".data), r)
  | none =>
    match matchCI ("email".data) s with
    | some r => some (("email".data), r)
    | none =>
      match matchCI ("message".data) s with
      | some r => some (("message".data), r)
      | none =>
        match matchCI ("search".data) s with
        | some r => some (("search".data), r)
        | none => none

/-- Try the whole trigger regex at the start of suffix `s` (with `prev` the
character just before `s` in the full text). On success, return the
lowercased captured field and the number of characters consumed (so that
`re.lastIndex` = position of `s` + that length). -/
def tryTrigger (prev : Option Char) (s : List Char) : Option (List Char × Nat) :=
  if boundaryOK prev then
    match matchTriggerWord s with
    | none => none
    | some r1 =>
      let ws := r1.takeWhile isSpaceJS
      if ws.isEmpty then none
      else
        let r2 := r1.drop ws.length
        match matchFieldWord r2 with
        | none => none
        | some (f, r3) =>
          let r4 := r3.dropWhile isSpaceJS
          let r5 := (matchCI ("field".data) r4).getD r4
          let r6 := r5.dropWhile isSpaceJS
          let r7 := (((matchCI ("as".data) r6).orElse fun _ =>
            (matchCI ("to".data) r6).orElse fun _ =>
              matchCI ("=".data) r6)).getD r6
          let r8 := r7.dropWhile isSpaceJS
          some (f, s.length - r8.length)
  else none

/-- The `while ((m = re.exec(t)) !== null)` loop collecting all trigger
matches left to right; on a match the scan resumes at `re.lastIndex`,
otherwise at the next position. `fuel` bounds the recursion (the text length
suffices since every step consumes at least one character). -/
def scanHits : Nat → Option Char → Nat → List Char → List TrigHit
  | 0, _, _, _ => []
  | _ + 1, _, _, [] => []
  | fuel + 1, prev, i, c :: rest =>
    match tryTrigger prev (c :: rest) with
    | some (f, L) =>
      ⟨f, i, i + L⟩ ::
        scanHits fuel (((c :: rest).take L).getLast?) (i + L) ((c :: rest).drop L)
    | none => scanHits fuel (some c) (i + 1) rest

/-- All trigger hits of a text. -/
def hitsOf (t : List Char) : List TrigHit := scanHits t.length none 0 t

/-- For hit i, the end of its value span: the next hit's `matchIndex`, or
the text length for the last hit. -/
def endsOf (t : List Char) : List Nat :=
  ((hitsOf t).drop 1).map (·.matchIndex) ++ [t.length]

/-- `t.slice(a, b)`. -/
def spanSlice (t : List Char) (a b : Nat) : List Char := (t.take b).drop a

/-- The raw candidate value spans, in hit order (the text between each
trigger's end and the next trigger's start). -/
def valueSpans (t : List Char) : List (List Char) :=
  ((hitsOf t).zip (endsOf t)).map (fun p => spanSlice t p.1.valueStart p.2)

/-- `value.replace(/^[,:-]\s*/, "")`: strip one leading separator and the
whitespace after it. -/
def stripLeadSep (l : List Char) : List Char :=
  match l with
  | c :: rest => if c = ',' ∨ c = ':' ∨ c = '-' then rest.dropWhile isSpaceJS else l
  | [] => []

/-- `value.replace(/[,\s]+$/, "")`: strip the trailing run of commas and
whitespace. -/
def stripTrailJunk (l : List Char) : List Char :=
  (l.reverse.dropWhile (fun c => c = ',' || isSpaceJS c)).reverse

/-- The value processing applied to each span: trim, strip one leading
separator, strip trailing commas/whitespace. -/
def processVal (sp : List Char) : List Char := stripTrailJunk (stripLeadSep (trimJS sp))

/-- The pre-dedup output list `out`: one entry per hit whose processed value
is non-empty. -/
def rawOut (t : List Char) : List FillIntent :=
  ((hitsOf t).zip (endsOf t)).filterMap (fun p =>
    let v := processVal (spanSlice t p.1.valueStart p.2)
    if v = [] then none else some ⟨p.1.field, v⟩)

/-- `final[x.field] = x.value` on a plain JS object used as an
insertion-ordered map: an existing key keeps its position and gets the new
value, a new key is appended. -/
def upsertIntent (m : List FillIntent) (f v : List Char) : List FillIntent :=
  if ∃ x ∈ m, x.field = f then m.map (fun x => if x.field = f then ⟨f, v⟩ else x)
  else m ++ [⟨f, v⟩]

/-- The dedup loop `for (const x of out) final[x.field] = x.value` followed
by `Object.entries` (field keys are non-numeric strings, so entry order is
insertion order of the first write, value is the last write). -/
def dedupLastWins (l : List FillIntent) : List FillIntent :=
  l.foldl (fun m x => upsertIntent m x.field x.value) []

/-- parseFillFromUser on an (already stringified) text: trim, return [] when
empty, otherwise scan triggers, build the value list and dedup last-wins. -/
def parseFill (t0 : List Char) : List FillIntent :=
  let t := trimJS t0
  if t = [] then [] else dedupLastWins (rawOut t)

/-! ## JSON values and JSON.parse

JSON.parse is modeled by a recursive-descent parser over char lists, strict
per the JSON grammar (no trailing commas, strict number syntax, string
escapes, whole-input consumption). Numbers are kept as their literal text:
`sig` holds the integer and fraction digits (which decide zeroness, hence JS
truthiness) and `raw` the full literal. -/

inductive Json where
  | jnull : Json
  | jbool : Bool → Json
  | jnum : List Char → List Char → Json
  | jstr : List Char → Json
  | jarr : List Json → Json
  | jobj : List (List Char × Json) → Json

/-- JSON whitespace (only space, tab, newline, carriage return). -/
def jsonWs (c : Char) : Bool := c = ' ' || c = '\t' || c = '\n' || c = '\r'

def skipWs (l : List Char) : List Char := l.dropWhile jsonWs

def hexVal (c : Char) : Option Nat :=
  if c.toNat ≥ 0x30 ∧ c.toNat ≤ 0x39 then some (c.toNat - 0x30)
  else if c.toNat ≥ 0x41 ∧ c.toNat ≤ 0x46 then some (c.toNat - 0x41 + 10)
  else if c.toNat ≥ 0x61 ∧ c.toNat ≤ 0x66 then some (c.toNat - 0x61 + 10)
  else none

/-- Four hex digits of a \uXXXX escape. (A code unit that is not a valid
scalar value falls back to Char.ofNat's default; surrogate-pair recombination
is not modeled, it cannot affect the keyword and allow-list comparisons.) -/
def parseHex4 : List Char → Option (Nat × List Char)
  | a :: b :: c :: d :: rest =>
    match hexVal a, hexVal b, hexVal c, hexVal d with
    | some x, some y, some z, some w => some (((x * 16 + y) * 16 + z) * 16 + w, rest)
    | _, _, _, _ => none
  | _ => none

/-- JSON string body after the opening quote: returns the decoded content
and the rest after the closing quote. Rejects raw control characters and
unknown escapes, as JSON.parse does. -/
def parseStrBody : Nat → List Char → Option (List Char × List Char)
  | 0, _ => none
  | _ + 1, [] => none
  | fuel + 1, c :: rest =>
    if c = '"' then some ([], rest)
    else if c = '\\' then
      match rest with
      | [] => none
      | e :: rest2 =>
        let esc : Option Char :=
          if e = '"' then some '"'
          else if e = '\\' then some '\\'
          else if e = '/' then some '/'
          else if e = 'b' then some (Char.ofNat 0x08)
          else if e = 'f' then some (Char.ofNat 0x0c)
          else if e = 'n' then some '\n'
          else if e = 'r' then some '\r'
          else if e = 't' then some '\t'
          else none
        match esc with
        | some ec => (parseStrBody fuel rest2).map (fun p => (ec :: p.1, p.2))
        | none =>
          if e = 'u' then
            match parseHex4 rest2 with
            | some (n, r3) => (parseStrBody fuel r3).map (fun p => (Char.ofNat n :: p.1, p.2))
            | none => none
          else none
    else if c.toNat < 0x20 then none
    else (parseStrBody fuel rest).map (fun p => (c :: p.1, p.2))

/-- JSON number: -? (0 | [1-9][0-9]*) (. [0-9]+)? ([eE][+-]?[0-9]+)?.
Returns the Json number and the rest. -/
def parseNumber (l : List Char) : Option (Json × List Char) :=
  let (neg, l1) : List Char × List Char :=
    match l with
    | '-' :: r => (['-'], r)
    | _ => ([], l)
  let intPart : Option (List Char × List Char) :=
    match l1 with
    | '0' :: r => some (['0'], r)
    | c :: _ =>
      if c.toNat ≥ 0x31 ∧ c.toNat ≤ 0x39 then
        some (l1.takeWhile Char.isDigit, l1.dropWhile Char.isDigit)
      else none
    | [] => none
  match intPart with
  | none => none
  | some (ip, l2) =>
    let fracPart : Option (List Char × List Char) :=
      match l2 with
      | '.' :: r =>
        let ds := r.takeWhile Char.isDigit
        if ds.isEmpty then none else some (ds, r.drop ds.length)
      | _ => some ([], l2)
    match fracPart with
    | none => none
    | some (fp, l3) =>
      let expPart : Option (List Char × List Char) :=
        match l3 with
        | c :: r =>
          if c = 'e' ∨ c = 'E' then
            let (sgn, r2) : List Char × List Char :=
              match r with
              | s :: r2 => if s = '+' ∨ s = '-' then ([s], r2) else ([], r)
              | [] => ([], r)
            let ds := r2.takeWhile Char.isDigit
            if ds.isEmpty then none else some ([c] ++ sgn ++ ds, r2.drop ds.length)
          else some ([], l3)
        | [] => some ([], l3)
      match expPart with
      | none => none
      | some (ep, l4) =>
        let raw := neg ++ ip ++ (if fp.isEmpty then [] else '.' :: fp) ++ ep
        some (.jnum (ip ++ fp) raw, l4)

def litPrefix (pat s : List Char) : Option (List Char) :=
  if s.take pat.length = pat then some (s.drop pat.length) else none

mutual

/-- One JSON value at the head of the input (input assumed ws-skipped).
Returns the value and the rest. -/
def parseVal : Nat → List Char → Option (Json × List Char)
  | 0, _ => none
  | fuel + 1, l =>
    match l with
    | [] => none
    | c :: rest =>
      if c.toNat = 0x7b then parseObjBody fuel (skipWs rest) []
      else if c = '[' then parseArrBody fuel (skipWs rest) []
      else if c = '"' then
        (parseStrBody (rest.length + 1) rest).map (fun p => (.jstr p.1, p.2))
      else if c = 't' then (litPrefix ("rue".data) rest).map (fun r => (.jbool true, r))
      else if c = 'f' then (litPrefix ("alse".data) rest).map (fun r => (.jbool false, r))
      else if c = 'n' then (litPrefix ("ull".data) rest).map (fun r => (.jnull, r))
      else if c = '-' ∨ c.isDigit then parseNumber l
      else none

/-- Object members after `{` (input ws-skipped); `acc` holds the members
parsed so far in textual order. -/
def parseObjBody : Nat → List Char → List (List Char × Json) → Option (Json × List Char)
  | 0, _, _ => none
  | fuel + 1, l, acc =>
    match l with
    | c :: rest =>
      if c.toNat = 0x7d ∧ acc.isEmpty then some (.jobj acc, rest)
      else if c = '"' then
        match parseStrBody (rest.length + 1) rest with
        | none => none
        | some (key, r1) =>
          match skipWs r1 with
          | ':' :: r2 =>
            match parseVal fuel (skipWs r2) with
            | none => none
            | some (v, r3) =>
              match skipWs r3 with
              | ',' :: r4 => parseObjMore fuel (skipWs r4) (acc ++ [(key, v)])
              | d :: r4 => if d.toNat = 0x7d then some (.jobj (acc ++ [(key, v)]), r4) else none
              | [] => none
          | _ => none
      else none
    | [] => none

/-- After a comma in an object: a member must follow (no trailing comma). -/
def parseObjMore : Nat → List Char → List (List Char × Json) → Option (Json × List Char)
  | 0, _, _ => none
  | fuel + 1, l, acc =>
    match l with
    | '"' :: rest =>
      match parseStrBody (rest.length + 1) rest with
      | none => none
      | some (key, r1) =>
        match skipWs r1 with
        | ':' :: r2 =>
          match parseVal fuel (skipWs r2) with
          | none => none
          | some (v, r3) =>
            match skipWs r3 with
            | ',' :: r4 => parseObjMore fuel (skipWs r4) (acc ++ [(key, v)])
            | d :: r4 => if d.toNat = 0x7d then some (.jobj (acc ++ [(key, v)]), r4) else none
            | [] => none
        | _ => none
    | _ => none

/-- Array elements after `[` (input ws-skipped). -/
def parseArrBody : Nat → List Char → List Json → Option (Json × List Char)
  | 0, _, _ => none
  | fuel + 1, l, acc =>
    match l with
    | ']' :: rest =>
      if acc.isEmpty then some (.jarr acc, rest) else none
    | _ =>
      match parseVal fuel l with
      | none => none
      | some (v, r1) =>
        match skipWs r1 with
        | ',' :: r2 => parseArrBody fuel (skipWs r2) (acc ++ [v])
        | ']' :: r2 => some (.jarr (acc ++ [v]), r2)
        | _ => none

end

/-- JSON.parse: whitespace, one value, whitespace, end of input. -/
def parseJson (s : List Char) : Option Json :=
  match parseVal (2 * s.length + 4) (skipWs s) with
  | some (v, r) => if skipWs r = [] then some v else none
  | none => none

/-! ## JS coercions on parsed values -/

/-- JS truthiness of a JSON value: false for null, false, 0, and the empty
string; true for every object and array. -/
def truthy : Json → Bool
  | .jnull => false
  | .jbool b => b
  | .jnum sig _ => sig.any (fun c => c.toNat ≥ 0x31 && c.toNat ≤ 0x39)
  | .jstr s => !s.isEmpty
  | .jarr _ => true
  | .jobj _ => true

mutual

/-- String(v) on a parsed JSON value. Numbers are rendered by their literal
(exact for the integer forms that occur here), objects as
"[object Object]", arrays by comma-joining their elements with null
rendered empty, as Array.prototype.toString does. -/
def jsToString : Json → List Char
  | .jnull => ("null".data)
  | .jbool true => ("true".data)
  | .jbool false => ("false".data)
  | .jnum _ raw => raw
  | .jstr s => s
  | .jobj _ => ("[object Object]".data)
  | .jarr xs => arrJoin xs

def arrJoin : List Json → List Char
  | [] => []
  | [x] => (match x with | .jnull => [] | y => jsToString y)
  | x :: y :: rest =>
    (match x with | .jnull => [] | z => jsToString z) ++ [','] ++ arrJoin (y :: rest)

end

/-- Property read on the parsed payload (`obj?.field`): only objects have
properties; a key written twice keeps the last value, as JSON.parse does. -/
def jprop : Json → List Char → Option Json
  | .jobj fs, k => ((fs.filter (fun p => p.1 = k)).map (·.2)).getLast?
  | _, _ => none

def truthyOpt : Option Json → Bool
  | none => false
  | some j => truthy j

/-! ## Actions and the Action Tag Parser -/

/-- A UI action. fill_selector and fill_field both correspond to the JS
action type "fill_input": the former has data {selector, value} (no field
key), the latter data {field, value} (no selector key). -/
inductive UiAction where
  | scroll_to_section : List Char → UiAction
  | scroll_page : List Char → UiAction
  | fill_selector : List Char → Json → UiAction
  | fill_field : List Char → Json → UiAction

/-- The three allow-lists (JS Sets). -/
def allowedSectionsL : List (List Char) :=
  [("home".data), ("about".data), ("projects".data), ("contact".data)]

def allowedDirectionsL : List (List Char) :=
  [("up".data), ("down".data), ("top".data), ("bottom".data)]

def allowedFieldsL : List (List Char) :=
  [("name".data), ("email".data), ("message".data), ("search".data)]

/-- Generic model of a `while ((m = re.exec(text)) !== null)` loop: at each
position try the pattern; on a match record the capture and resume at the
end of the match, otherwise advance one character. `fuel` bounds the
recursion (the text length suffices: every step consumes a character). -/
def scanAll {α : Type} (m : List Char → Option (α × Nat)) : Nat → List Char → List α
  | 0, _ => []
  | _ + 1, [] => []
  | fuel + 1, c :: rest =>
    match m (c :: rest) with
    | some (a, L) => a :: scanAll m fuel ((c :: rest).drop L)
    | none => scanAll m fuel rest

/-- /\[ACTION:scroll_to_section:([a-zA-Z0-9_-]+)\]/ at the head of `s`:
the literal prefix, a nonempty maximal id-char run, then `]`.
Returns the raw capture and the match length. -/
def trySection (s : List Char) : Option (List Char × Nat) :=
  match litPrefix ("[ACTION:scroll_to_section:".data) s with
  | none => none
  | some r =>
    let run := r.takeWhile isIdChar
    if run.isEmpty then none
    else match r.drop run.length with
      | ']' :: _ => some (run, 26 + run.length + 1)
      | _ => none

/-- /\[ACTION:scroll_page:([a-zA-Z0-9_-]+)\]/ at the head of `s`. -/
def tryPage (s : List Char) : Option (List Char × Nat) :=
  match litPrefix ("[ACTION:scroll_page:".data) s with
  | none => none
  | some r =>
    let run := r.takeWhile isIdChar
    if run.isEmpty then none
    else match r.drop run.length with
      | ']' :: _ => some (run, 20 + run.length + 1)
      | _ => none

/-- The lazy body of /\{.*?\}\]/ after the opening brace: the shortest run of
`.`-matchable characters whose closing brace is immediately followed by `]`.
Returns the body and the characters consumed (body, `}`, `]`). -/
def lazyBody : List Char → Option (List Char × Nat)
  | c :: d :: rest =>
    if c.toNat = 0x7d ∧ d = ']' then some ([], 2)
    else if isDotChar c then
      match lazyBody (d :: rest) with
      | some (b, n) => some (c :: b, n + 1)
      | none => none
    else none
  | _ => none

/-- /\[ACTION:fill_input:(\{.*?\})\]/ at the head of `s`: returns the
captured payload (including its braces) and the match length. -/
def tryFill (s : List Char) : Option (List Char × Nat) :=
  match litPrefix ("[ACTION:fill_input:".data) s with
  | none => none
  | some r =>
    match r with
    | c :: rest =>
      if c.toNat = 0x7b then
        match lazyBody rest with
        | some (b, n) => some ((c :: b) ++ [Char.ofNat 0x7d], 19 + 1 + n)
        | none => none
      else none
    | [] => none

/-- The loop body for one fill_input tag occurrence:
`try { const obj = JSON.parse(m[1]); ... } catch {}`. The three reads below
are `obj?.field ? String(obj.field).toLowerCase() : ""`,
`obj?.selector ? String(obj.selector) : ""` and `obj?.value ?? ""`. -/
def fieldStrOf (obj : Json) : List Char :=
  if truthyOpt (jprop obj ("field".data)) then
    toLowerList (jsToString ((jprop obj ("field".data)).getD .jnull))
  else []

def selectorStrOf (obj : Json) : List Char :=
  if truthyOpt (jprop obj ("selector".data)) then
    jsToString ((jprop obj ("selector".data)).getD .jnull)
  else []

def valueOf (obj : Json) : Json :=
  match jprop obj ("value".data) with
  | none => .jstr []
  | some .jnull => .jstr []
  | some v => v

/-- Validation and push for one payload occurrence; `none` both when the
payload is not valid JSON (the catch swallows it) and when neither a
truthy selector nor an allow-listed field is present. -/
def handleFill (payload : List Char) : Option UiAction :=
  match parseJson payload with
  | none => none
  | some obj =>
    let field := fieldStrOf obj
    let selector := selectorStrOf obj
    if selector ≠ [] then some (.fill_selector selector (valueOf obj))
    else if field ≠ [] ∧ field ∈ allowedFieldsL then some (.fill_field field (valueOf obj))
    else none

/-- The scroll_to_section extraction loop: lowercase the capture and push
when it is in the allow-list. -/
def extractSectionActions (raw : List Char) : List UiAction :=
  (scanAll trySection raw.length raw).filterMap (fun id =>
    let sectionId := toLowerList id
    if sectionId ∈ allowedSectionsL then some (.scroll_to_section sectionId) else none)

/-- The scroll_page extraction loop. -/
def extractPageActions (raw : List Char) : List UiAction :=
  (scanAll tryPage raw.length raw).filterMap (fun d =>
    let direction := toLowerList d
    if direction ∈ allowedDirectionsL then some (.scroll_page direction) else none)

/-- The payload occurrences of fill_input tags, in textual order. -/
def fillPayloads (raw : List Char) : List (List Char) := scanAll tryFill raw.length raw

/-- The fill_input extraction loop. -/
def extractFillActions (raw : List Char) : List UiAction :=
  (fillPayloads raw).filterMap handleFill

/-- All model-derived actions, in the order the three loops push them. -/
def extractActions (raw : List Char) : List UiAction :=
  extractSectionActions raw ++ extractPageActions raw ++ extractFillActions raw

/-! ## Text cleanup -/

/-- /\[ACTION:[^\]]+\]/ at the head of `s`: the literal prefix, a nonempty
maximal run of non-`]` characters, then `]`. Returns the match length. -/
def tryStrip (s : List Char) : Option (Unit × Nat) :=
  match litPrefix ("[ACTION:".data) s with
  | none => none
  | some r =>
    let run := r.takeWhile (fun c => c ≠ ']')
    if run.isEmpty then none
    else match r.drop run.length with
      | ']' :: _ => some ((), 8 + run.length + 1)
      | _ => none

/-- `rawText.replace(/\[ACTION:[^\]]+\]/g, "")`: drop every match, keep
every other character. -/
def stripTags : Nat → List Char → List Char
  | 0, _ => []
  | _ + 1, [] => []
  | fuel + 1, c :: rest =>
    match tryStrip (c :: rest) with
    | some (_, L) => stripTags fuel ((c :: rest).drop L)
    | none => c :: stripTags fuel rest

/-- The default display text: tags stripped, then trimmed. -/
def cleanedTextOf (raw : List Char) : List Char := trimJS (stripTags raw.length raw)

/-! ## Reconciler and processMessage -/

/-- The duplicate check of the merge loop:
`a.type === "fill_input" && a.data?.field === f.field`. A selector-based
fill has no field key, so it never matches. -/
def isFillFieldFor (a : UiAction) (fld : List Char) : Bool :=
  match a with
  | .fill_field g _ => decide (g = fld)
  | _ => false

def hasFF (acts : List UiAction) (fld : List Char) : Bool :=
  acts.any (fun a => isFillFieldFor a fld)

/-- The merge loop: append each forced fill unless a fill_input action for
the same field is already in the (growing) list. -/
def mergeForced (acts : List UiAction) (ffs : List FillIntent) : List UiAction :=
  ffs.foldl (fun acc f =>
    if hasFF acc f.field then acc
    else acc ++ [.fill_field f.field (.jstr f.value)]) acts

/-- `parseFillFromUser(userMessage).filter(x => allowedFields.has(x.field))`. -/
def forcedFillsOf (um : List Char) : List FillIntent :=
  (parseFill um).filter (fun x => x.field ∈ allowedFieldsL)

/-- The forced-fill confirmation text:
`Done. Filled: ${fields joined by ", "}.`. -/
def doneText (ffs : List FillIntent) : List Char :=
  ("Done. Filled: ".data) ++ joinSep (", ".data) (ffs.map (·.field)) ++ (".".data)

/-- The result record {text, actions}. -/
structure Result where
  text : List Char
  actions : List UiAction

/-- The success path of processMessage after the model call returned
`raw`: extract model actions, compute forced fills, merge, clean the text
and override it when at least one forced fill was detected. -/
def successResult (raw um : List Char) : Result :=
  let actions := mergeForced (extractActions raw) (forcedFillsOf um)
  let ffs := forcedFillsOf um
  ⟨if ffs.isEmpty then cleanedTextOf raw else doneText ffs, actions⟩

/-- A thrown JS error as seen by the catch blocks: `error?.message`, where
`none` stands for a missing/undefined message. -/
def errText (e : Option (List Char)) : List Char :=
  ("Error: ".data) ++
    (match e with
     | some m => if m.isEmpty then ("Unknown error".data) else m
     | none => ("Unknown error".data))

/-- processMessage of the main service: the argument stands for the outcome
of the awaited model call (`Except.error` = the call threw); every internal
step after it is pure. On a throw the catch returns
`{ text: "Error: ...", actions: [] }`. -/
def processMessage (modelResult : Except (Option (List Char)) (List Char))
    (um : List Char) : Result :=
  match modelResult with
  | .ok raw => successResult raw um
  | .error e => ⟨errText e, []⟩

/-- The catch block of the legacy services/geminiService.js processMessage
(lines 160-179): an apology message specialised by substring checks on the
error message, with empty actions. -/
def geminiCatchResult (e : Option (List Char)) : Result :=
  let includes : List Char → Bool := fun s =>
    match e with
    | some m => containsSub m s
    | none => false
  let tail :=
    if includes ("API_KEY".data) then ("API key configuration issue.".data)
    else if includes ("quota".data) || includes ("429".data) then
      ("API quota exceeded. Please try again later.".data)
    else if includes ("403".data) || includes ("permission".data) then
      ("API access denied. Please verify API permissions.".data)
    else if includes ("network".data) || includes ("fetch".data) then
      ("Network error. Please check your internet connection.".data)
    else
      ("Error details: ".data) ++
        (match e with
         | some m => if m.isEmpty then ("Unknown error".data) else m
         | none => ("Unknown error".data)) ++ (".".data)
  ⟨("I apologize, but I encountered an error. ".data) ++ tail, []⟩

/-! ## History Normalizer

Identical in both service files: take the last 6 turns, map
assistant -> model / everything else -> user, drop leading model turns,
then collapse consecutive same-role turns keeping the first of each run. -/

/-- A caller-side conversation turn. -/
structure Turn where
  role : List Char
  content : List Char
deriving DecidableEq

/-- A turn in the external model's vocabulary. -/
structure GTurn where
  role : List Char
  text : List Char
deriving DecidableEq

/-- Role mapping: `role: msg.role === "assistant" ? "model" : "user"`. -/
def convTurn (t : Turn) : GTurn :=
  ⟨if t.role = ("assistant".data) then ("model".data) else ("user".data), t.content⟩

/-- `conversationHistory.slice(-6)`. -/
def lastN (n : Nat) (l : List Turn) : List Turn := l.drop (l.length - n)

/-- The cleanup loop: push a turn unless the previously pushed turn has the
same role. -/
def collapseTurns (l : List GTurn) : List GTurn :=
  l.foldl (fun acc cur =>
    match acc.getLast? with
    | some p => if p.role = cur.role then acc else acc ++ [cur]
    | none => acc ++ [cur]) []

/-- The whole normalization (the `conversationHistory.length > 0` branch;
for an empty log the result is the empty history). -/
def normalizeHistory (h : List Turn) : List GTurn :=
  if h.isEmpty then []
  else
    collapseTurns
      (((lastN 6 h).map convTurn).dropWhile (fun t => t.role = ("model".data)))

/-! ## Missing entry-point coercion (parseFillFromUser's String(text || "")) -/

/-- parseFillFromUser as called with an arbitrary JS value:
`String(text || "").trim()` — a falsy argument (undefined, null, false, 0,
"") is replaced by "" before stringification, so a non-string argument is
coerced and never throws. `none` stands for undefined. -/
def parseFillJS (v : Option Json) : List FillIntent :=
  parseFill
    (match v with
     | some j => if truthy j then jsToString j else []
     | none => [])

/-! ## Specification-side characterizations -/

/-- The value of the last entry carrying a given field, if any. -/
def lastValueFor : List FillIntent → List Char → Option (List Char)
  | [], _ => none
  | x :: rest, g =>
    match lastValueFor rest g with
    | some v => some v
    | none => if x.field = g then some x.value else none

/-- Keys ordered by their first occurrence. -/
def firstOccurrenceOrder (ks : List (List Char)) : List (List Char) :=
  ks.foldl (fun acc f => if f ∈ acc then acc else acc ++ [f]) []

/-! ## Lemmas about the last-wins dedup -/

theorem lem_field_upd (f v : List Char) (x : FillIntent) :
    (if x.field = f then (⟨f, v⟩ : FillIntent) else x).field = x.field := by
  by_cases h : x.field = f <;> simp [h]

theorem lem_keys_upsert (m : List FillIntent) (f v : List Char) :
    (upsertIntent m f v).map (·.field) =
      if f ∈ m.map (·.field) then m.map (·.field) else m.map (·.field) ++ [f] := by
  unfold upsertIntent
  by_cases h : ∃ x ∈ m, x.field = f
  · rw [if_pos h, if_pos]
    · rw [List.map_map]
      exact List.map_congr_left (fun x _ => lem_field_upd f v x)
    · obtain ⟨x, hx, hf⟩ := h
      exact List.mem_map.mpr ⟨x, hx, hf⟩
  · have hnm : ¬ f ∈ m.map (·.field) := by
      intro hmem
      obtain ⟨x, hx, hf⟩ := List.mem_map.mp hmem
      exact h ⟨x, hx, hf⟩
    rw [if_neg h, if_neg hnm, List.map_append]
    rfl

theorem lem_keys_dedup_aux (l : List FillIntent) :
    ∀ m : List FillIntent,
      (List.foldl (fun m x => upsertIntent m x.field x.value) m l).map (·.field) =
        List.foldl (fun acc f => if f ∈ acc then acc else acc ++ [f])
          (m.map (·.field)) (l.map (·.field)) := by
  induction l with
  | nil => intro m; rfl
  | cons x rest ih =>
    intro m
    simp only [List.foldl_cons, List.map_cons]
    rw [ih, lem_keys_upsert]

theorem lem_keys_dedup (l : List FillIntent) :
    (dedupLastWins l).map (·.field) = firstOccurrenceOrder (l.map (·.field)) := by
  unfold dedupLastWins firstOccurrenceOrder
  simpa using lem_keys_dedup_aux l []

theorem lem_firstSeen_nodup (ks : List (List Char)) :
    ∀ acc : List (List Char), acc.Nodup →
      (List.foldl (fun acc f => if f ∈ acc then acc else acc ++ [f]) acc ks).Nodup := by
  induction ks with
  | nil => intro acc h; exact h
  | cons k rest ih =>
    intro acc h
    simp only [List.foldl_cons]
    by_cases hk : k ∈ acc
    · rw [if_pos hk]; exact ih acc h
    · rw [if_neg hk]
      exact ih _ (by simp [List.nodup_append, h, hk])

theorem lem_firstSeen_subset (ks : List (List Char)) :
    ∀ acc x, x ∈ List.foldl (fun acc f => if f ∈ acc then acc else acc ++ [f]) acc ks →
      x ∈ acc ∨ x ∈ ks := by
  induction ks with
  | nil => intro acc x h; exact Or.inl h
  | cons k rest ih =>
    intro acc x h
    simp only [List.foldl_cons] at h
    by_cases hk : k ∈ acc
    · rw [if_pos hk] at h
      rcases ih acc x h with h1 | h1
      · exact Or.inl h1
      · exact Or.inr (List.mem_cons_of_mem _ h1)
    · rw [if_neg hk] at h
      rcases ih _ x h with h1 | h1
      · rcases List.mem_append.mp h1 with h2 | h2
        · exact Or.inl h2
        · exact Or.inr (by simp at h2; simp [h2])
      · exact Or.inr (List.mem_cons_of_mem _ h1)

theorem lem_lastValueFor_nil (g : List Char) : lastValueFor [] g = none := rfl

theorem lem_lastValueFor_cons (x : FillIntent) (rest : List FillIntent) (g : List Char) :
    lastValueFor (x :: rest) g =
      match lastValueFor rest g with
      | some v => some v
      | none => if x.field = g then some x.value else none := rfl

theorem lem_lastValueFor_append (l1 l2 : List FillIntent) (g : List Char) :
    lastValueFor (l1 ++ l2) g =
      match lastValueFor l2 g with
      | some v => some v
      | none => lastValueFor l1 g := by
  induction l1 with
  | nil =>
    rw [List.nil_append, lem_lastValueFor_nil]
    cases lastValueFor l2 g <;> rfl
  | cons x rest ih =>
    rw [List.cons_append, lem_lastValueFor_cons, ih, lem_lastValueFor_cons]
    cases lastValueFor l2 g <;> cases lastValueFor rest g <;> rfl

theorem lem_lastValueFor_none (m : List FillIntent) (g : List Char)
    (h : ∀ x ∈ m, x.field ≠ g) : lastValueFor m g = none := by
  induction m with
  | nil => rfl
  | cons x rest ih =>
    simp only [lastValueFor]
    rw [ih (fun y hy => h y (List.mem_cons_of_mem _ hy))]
    simp [h x (List.mem_cons_self x rest)]

theorem lem_lastValueFor_map_upd_ne (m : List FillIntent) (f v g : List Char) (hg : g ≠ f) :
    lastValueFor (m.map (fun x => if x.field = f then ⟨f, v⟩ else x)) g =
      lastValueFor m g := by
  induction m with
  | nil => rfl
  | cons x rest ih =>
    simp only [List.map_cons, lastValueFor, ih]
    cases lastValueFor rest g with
    | some w => rfl
    | none =>
      by_cases hx : x.field = f
      · simp [hx, Ne.symm hg, hg]
      · simp [hx]

theorem lem_lastValueFor_map_upd_eq (m : List FillIntent) (f v : List Char)
    (h : ∃ x ∈ m, x.field = f) :
    lastValueFor (m.map (fun x => if x.field = f then ⟨f, v⟩ else x)) f = some v := by
  induction m with
  | nil => simp at h
  | cons x rest ih =>
    simp only [List.map_cons, lastValueFor]
    by_cases hr : ∃ y ∈ rest, y.field = f
    · rw [ih hr]
    · have hrest : lastValueFor (rest.map (fun x => if x.field = f then ⟨f, v⟩ else x)) f = none := by
        apply lem_lastValueFor_none
        intro y hy
        obtain ⟨z, hz, hzy⟩ := List.mem_map.mp hy
        intro hyf
        apply hr
        refine ⟨z, hz, ?_⟩
        rw [← hzy] at hyf
        rw [lem_field_upd] at hyf
        exact hyf
      rw [hrest]
      have hx : x.field = f := by
        obtain ⟨y, hy, hyf⟩ := h
        rcases List.mem_cons.mp hy with h1 | h1
        · rw [← h1]; exact hyf
        · exact absurd ⟨y, h1, hyf⟩ hr
      simp [hx]

theorem lem_lastValueFor_upsert (m : List FillIntent) (f v g : List Char) :
    lastValueFor (upsertIntent m f v) g =
      if f = g then some v else lastValueFor m g := by
  unfold upsertIntent
  by_cases h : ∃ x ∈ m, x.field = f
  · rw [if_pos h]
    by_cases hg : f = g
    · subst hg; rw [if_pos rfl]; exact lem_lastValueFor_map_upd_eq m f v h
    · rw [if_neg hg]; exact lem_lastValueFor_map_upd_ne m f v g (Ne.symm hg)
  · rw [if_neg h, lem_lastValueFor_append]
    simp only [lastValueFor]
    by_cases hg : f = g <;> simp [hg]

theorem lem_lastValueFor_dedup_aux (l : List FillIntent) :
    ∀ (m : List FillIntent) (g : List Char),
      lastValueFor (List.foldl (fun m x => upsertIntent m x.field x.value) m l) g =
        match lastValueFor l g with
        | some v => some v
        | none => lastValueFor m g := by
  induction l with
  | nil => intro m g; rfl
  | cons x rest ih =>
    intro m g
    simp only [List.foldl_cons, lastValueFor]
    rw [ih]
    cases lastValueFor rest g with
    | some w => rfl
    | none =>
      rw [lem_lastValueFor_upsert]
      by_cases hx : x.field = g <;> simp [hx]

theorem lem_lastValueFor_dedup (l : List FillIntent) (g : List Char) :
    lastValueFor (dedupLastWins l) g = lastValueFor l g := by
  unfold dedupLastWins
  rw [lem_lastValueFor_dedup_aux]
  cases lastValueFor l g <;> rfl

/-- C2: for every user text the deterministic extractor returns at most one
FillIntent per field (its field list is duplicate-free), the value kept for
a field is the one derived from the last trigger that produced that field,
the output order is the insertion order of each field's first occurrence
among the triggers, and on the spec's example
"set message to A. set message to B" the result is exactly one intent for
message with value "B". -/
theorem claim_C2_dedup_last_wins :
    (∀ t : List Char,
      ((parseFill t).map (·.field)).Nodup ∧
      (parseFill t).map (·.field) =
        firstOccurrenceOrder ((rawOut (trimJS t)).map (·.field)) ∧
      ∀ f, lastValueFor (parseFill t) f = lastValueFor (rawOut (trimJS t)) f) ∧
    parseFill ("set message to A. set message to B".data) =
      [⟨("message".data), ("B".data)⟩] := by
  constructor
  · intro t
    by_cases h : trimJS t = []
    · have hp : parseFill t = [] := by
        simp only [parseFill]
        rw [if_pos h]
      rw [hp, h]
      exact ⟨List.nodup_nil, rfl, fun f => rfl⟩
    · have hp : parseFill t = dedupLastWins (rawOut (trimJS t)) := by
        simp only [parseFill]
        rw [if_neg h]
      rw [hp]
      refine ⟨?_, lem_keys_dedup _, fun f => lem_lastValueFor_dedup _ f⟩
      rw [lem_keys_dedup]
      unfold firstOccurrenceOrder
      exact lem_firstSeen_nodup _ [] List.nodup_nil
  · rfl

/-! ## Lemmas: every extracted field is allow-listed -/

theorem lem_matchFieldWord_allowed (s f : List Char) (r : List Char)
    (h : matchFieldWord s = some (f, r)) : f ∈ allowedFieldsL := by
  unfold matchFieldWord at h
  repeat' split at h
  all_goals simp_all [allowedFieldsL]

theorem lem_tryTrigger_allowed (prev : Option Char) (s f : List Char) (L : Nat)
    (h : tryTrigger prev s = some (f, L)) : f ∈ allowedFieldsL := by
  unfold tryTrigger at h
  repeat' split at h
  all_goals simp_all
  obtain ⟨-, h2⟩ := h
  split at h2
  · exact absurd h2 (by simp)
  · rename_i f' r3 hfw
    simp only [Option.some.injEq, Prod.mk.injEq] at h2
    obtain ⟨hf, -⟩ := h2
    subst hf
    exact lem_matchFieldWord_allowed _ _ _ hfw

theorem lem_scanHits_allowed :
    ∀ (fuel : Nat) (prev : Option Char) (i : Nat) (s : List Char) (x : TrigHit),
      x ∈ scanHits fuel prev i s → x.field ∈ allowedFieldsL := by
  intro fuel
  induction fuel with
  | zero => intro prev i s x h; simp [scanHits] at h
  | succ n ih =>
    intro prev i s x h
    cases s with
    | nil => simp [scanHits] at h
    | cons c rest =>
      rw [scanHits] at h
      cases htt : tryTrigger prev (c :: rest) with
      | none =>
        rw [htt] at h
        exact ih _ _ _ x h
      | some p =>
        rw [htt] at h
        rcases List.mem_cons.mp h with h1 | h1
        · rw [h1]
          exact lem_tryTrigger_allowed _ _ _ _ htt
        · exact ih _ _ _ x h1

theorem lem_rawOut_fields (t : List Char) (x : FillIntent) (hx : x ∈ rawOut t) :
    x.field ∈ allowedFieldsL := by
  unfold rawOut at hx
  obtain ⟨p, hp, hgx⟩ := List.mem_filterMap.mp hx
  have hfield : x.field = p.1.field := by
    by_cases hv : processVal (spanSlice t p.1.valueStart p.2) = []
    · simp [hv] at hgx
    · simp [hv] at hgx
      rw [← hgx]
  rw [hfield]
  have hmem : p.1 ∈ hitsOf t := (List.of_mem_zip hp).1
  exact lem_scanHits_allowed _ _ _ _ _ hmem

theorem lem_parseFill_fields (t : List Char) (x : FillIntent) (hx : x ∈ parseFill t) :
    x.field ∈ allowedFieldsL := by
  by_cases h : trimJS t = []
  · have hp : parseFill t = [] := by
      simp only [parseFill]; rw [if_pos h]
    rw [hp] at hx
    simp at hx
  · have hp : parseFill t = dedupLastWins (rawOut (trimJS t)) := by
      simp only [parseFill]; rw [if_neg h]
    rw [hp] at hx
    have hkey : x.field ∈ (dedupLastWins (rawOut (trimJS t))).map (·.field) :=
      List.mem_map.mpr ⟨x, hx, rfl⟩
    rw [lem_keys_dedup] at hkey
    unfold firstOccurrenceOrder at hkey
    rcases lem_firstSeen_subset _ [] x.field hkey with h1 | h1
    · simp at h1
    · obtain ⟨y, hy, hyf⟩ := List.mem_map.mp h1
      rw [← hyf]
      exact lem_rawOut_fields _ y hy

/-- The post-parse filter by the field allow-list never removes anything:
parseFillFromUser only ever emits the four allow-listed fields. -/
theorem lem_forced_eq (um : List Char) : forcedFillsOf um = parseFill um := by
  unfold forcedFillsOf
  rw [List.filter_eq_self]
  intro x hx
  simpa using lem_parseFill_fields um x hx

/-- C3: whenever the deterministic extractor detects at least one fill
intent and the model call succeeds, the returned text is exactly
"Done. Filled: " followed by the detected field names joined by ", " in
detection order and a final period, whatever the model replied. -/
theorem claim_C3_done_text (raw um : List Char) (h : parseFill um ≠ []) :
    (processMessage (.ok raw) um).text =
      ("Done. Filled: ".data) ++
        joinSep (", ".data) ((parseFill um).map (·.field)) ++ (".".data) := by
  show (successResult raw um).text = _
  unfold successResult
  simp only []
  rw [lem_forced_eq]
  rw [if_neg (by simpa [List.isEmpty_iff] using h)]
  unfold doneText
  rfl

theorem claim_C3_done_text_witness :
    parseFill ("fill name as Bob".data) ≠ [] ∧
    (processMessage (.ok ("I cannot do that".data)) ("fill name as Bob".data)).text =
      ("Done. Filled: name.".data) :=
  ⟨by decide, claim_C3_done_text _ _ (by decide)⟩

/-! ## Lemmas: the Reconciler merge -/

theorem lem_hasFF_append (l1 l2 : List UiAction) (fld : List Char) :
    hasFF (l1 ++ l2) fld = (hasFF l1 fld || hasFF l2 fld) := by
  unfold hasFF
  exact List.any_append

theorem lem_mergeForced_char (ffs : List FillIntent) :
    ∀ acts : List UiAction, (ffs.map (·.field)).Nodup →
      mergeForced acts ffs =
        acts ++ (ffs.filter (fun f => !hasFF acts f.field)).map
          (fun f => UiAction.fill_field f.field (.jstr f.value)) := by
  induction ffs with
  | nil => intro acts _; simp [mergeForced]
  | cons f rest ih =>
    intro acts hnd
    have hndr : (rest.map (·.field)).Nodup := (List.nodup_cons.mp hnd).2
    have hfnotin : f.field ∉ rest.map (·.field) := (List.nodup_cons.mp hnd).1
    show List.foldl _ _ (f :: rest) = _
    rw [List.foldl_cons]
    by_cases h : hasFF acts f.field
    · simp only [h, if_true]
      have := ih acts hndr
      unfold mergeForced at this
      rw [this]
      rw [List.filter_cons]
      simp [h]
    · simp only [h]
      rw [if_neg (by simp [h])]
      have := ih (acts ++ [UiAction.fill_field f.field (.jstr f.value)]) hndr
      unfold mergeForced at this
      rw [this]
      have hfilter :
          rest.filter (fun g => !hasFF (acts ++ [UiAction.fill_field f.field (.jstr f.value)]) g.field) =
            rest.filter (fun g => !hasFF acts g.field) := by
        apply List.filter_congr
        intro g hg
        have hne : f.field ≠ g.field := by
          intro heq
          exact hfnotin (heq ▸ List.mem_map.mpr ⟨g, hg, rfl⟩)
        rw [lem_hasFF_append]
        have : hasFF [UiAction.fill_field f.field (.jstr f.value)] g.field = false := by
          simp [hasFF, isFillFieldFor, hne]
        rw [this, Bool.or_false]
      rw [hfilter, List.filter_cons]
      simp only [h, Bool.not_false, if_true]
      rw [List.map_cons, List.append_assoc]
      rfl

/-- The fill_input actions of the list that carry a given field, with their
values, in order. -/
def fillFieldEntries (acts : List UiAction) (fld : List Char) : List Json :=
  acts.filterMap (fun a =>
    match a with
    | .fill_field g v => if g = fld then some v else none
    | _ => none)

theorem lem_parseFill_nodup (t : List Char) : ((parseFill t).map (·.field)).Nodup := by
  by_cases h : trimJS t = []
  · have hp : parseFill t = [] := by
      simp only [parseFill]; rw [if_pos h]
    rw [hp]; exact List.nodup_nil
  · have hp : parseFill t = dedupLastWins (rawOut (trimJS t)) := by
      simp only [parseFill]; rw [if_neg h]
    rw [hp, lem_keys_dedup]
    unfold firstOccurrenceOrder
    exact lem_firstSeen_nodup _ [] List.nodup_nil

/-- C1: for every model response text and user message, the final action
list is exactly the model-derived actions followed by those deterministic
fills whose field has no model-derived fill_input action, in their
detection order; consequently, for a field that the model already filled,
the final list's fill_input entries for that field are exactly the
model-derived ones (the deterministic value is dropped). -/
theorem claim_C1_reconciler_merge :
    ∀ raw um : List Char,
      (processMessage (.ok raw) um).actions =
        extractActions raw ++
          ((forcedFillsOf um).filter (fun f => !hasFF (extractActions raw) f.field)).map
            (fun f => UiAction.fill_field f.field (.jstr f.value)) ∧
      ∀ fld : List Char, hasFF (extractActions raw) fld = true →
        fillFieldEntries (processMessage (.ok raw) um).actions fld =
          fillFieldEntries (extractActions raw) fld := by
  intro raw um
  have hnd : ((forcedFillsOf um).map (·.field)).Nodup := by
    rw [lem_forced_eq]
    exact lem_parseFill_nodup um
  have hmain : (processMessage (.ok raw) um).actions =
      extractActions raw ++
        ((forcedFillsOf um).filter (fun f => !hasFF (extractActions raw) f.field)).map
          (fun f => UiAction.fill_field f.field (.jstr f.value)) := by
    show (successResult raw um).actions = _
    unfold successResult
    exact lem_mergeForced_char _ _ hnd
  refine ⟨hmain, ?_⟩
  intro fld hfld
  rw [hmain]
  unfold fillFieldEntries
  rw [List.filterMap_append]
  have hadded :
      (((forcedFillsOf um).filter (fun f => !hasFF (extractActions raw) f.field)).map
          (fun f => UiAction.fill_field f.field (.jstr f.value))).filterMap
        (fun a =>
          match a with
          | .fill_field g v => if g = fld then some v else none
          | _ => none) = [] := by
    rw [List.filterMap_eq_nil_iff]
    intro a ha
    obtain ⟨f, hf, hfa⟩ := List.mem_map.mp ha
    have hfilt := List.of_mem_filter hf
    rw [← hfa]
    simp only []
    by_cases hg : f.field = fld
    · rw [hg] at hfilt
      rw [hfld] at hfilt
      simp at hfilt
    · simp [hg]
  rw [hadded, List.append_nil]

theorem claim_C1_reconciler_merge_witness :
    hasFF (extractActions ("[ACTION:fill_input:\x7b\"field\":\"name\",\"value\":\"Bob\"\x7d]".data))
        ("name".data) = true ∧
    fillFieldEntries
        (processMessage
          (.ok ("[ACTION:fill_input:\x7b\"field\":\"name\",\"value\":\"Bob\"\x7d]".data))
          ("fill name as Ved".data)).actions ("name".data) =
      fillFieldEntries
        (extractActions ("[ACTION:fill_input:\x7b\"field\":\"name\",\"value\":\"Bob\"\x7d]".data))
        ("name".data) :=
  ⟨rfl,
    (claim_C1_reconciler_merge
      ("[ACTION:fill_input:\x7b\"field\":\"name\",\"value\":\"Bob\"\x7d]".data)
      ("fill name as Ved".data)).2 ("name".data) rfl⟩

/-- C10: a falsy argument to parseFillFromUser (undefined, null, false, 0,
"") and a whitespace-only string both yield the empty sequence; the value
is coerced by String(text || "") and trimmed before any matching, so the
entry point is total on every JS value (no throw is modeled as totality of
the function). -/
theorem claim_C10_falsy_input :
    (∀ v : Option Json, truthyOpt v = false → parseFillJS v = []) ∧
    (∀ s : List Char, trimJS s = [] → parseFillJS (some (.jstr s)) = []) := by
  constructor
  · intro v hv
    cases v with
    | none => rfl
    | some j =>
      have ht : truthy j = false := hv
      show parseFill (if truthy j = true then jsToString j else []) = []
      rw [ht]
      rfl
  · intro s hs
    by_cases ht : truthy (Json.jstr s)
    · show parseFill (if truthy (Json.jstr s) = true then jsToString (Json.jstr s) else []) = []
      rw [ht]
      show parseFill s = []
      simp only [parseFill]
      rw [if_pos hs]
    · rw [Bool.not_eq_true] at ht
      show parseFill (if truthy (Json.jstr s) = true then jsToString (Json.jstr s) else []) = []
      rw [ht]
      rfl

theorem claim_C10_falsy_input_witness :
    (truthyOpt (some .jnull) = false ∧ parseFillJS (some .jnull) = []) ∧
    (trimJS ("   ".data) = [] ∧ parseFillJS (some (.jstr ("   ".data))) = []) :=
  ⟨⟨rfl, claim_C10_falsy_input.1 (some .jnull) rfl⟩,
   ⟨rfl, claim_C10_falsy_input.2 ("   ".data) rfl⟩⟩

/-! ## Lemmas: when the value processing is the identity after trimming -/

theorem lem_dropWhile_head {α : Type} (p : α → Bool) (l : List α) (c : α)
    (h : (l.dropWhile p).head? = some c) : p c = false := by
  induction l with
  | nil => simp [List.dropWhile] at h
  | cons x rest ih =>
    rw [List.dropWhile_cons] at h
    by_cases hx : p x
    · rw [if_pos hx] at h
      exact ih h
    · rw [if_neg hx] at h
      simp at h
      rw [← h]
      exact Bool.not_eq_true _ |>.mp hx

theorem lem_trim_last_not_space (l : List Char) (c : Char)
    (h : (trimJS l).getLast? = some c) : isSpaceJS c = false := by
  unfold trimJS at h
  rw [List.getLast?_reverse] at h
  exact lem_dropWhile_head _ _ _ h

theorem lem_stripLeadSep_noop (l : List Char)
    (h1 : l.head? ≠ some ',') (h2 : l.head? ≠ some ':') (h3 : l.head? ≠ some '-') :
    stripLeadSep l = l := by
  cases l with
  | nil => rfl
  | cons c rest =>
    simp only [List.head?_cons] at h1 h2 h3
    show (if c = ',' ∨ c = ':' ∨ c = '-' then rest.dropWhile isSpaceJS else c :: rest) = c :: rest
    rw [if_neg]
    rintro (hc | hc | hc)
    · exact h1 (by rw [hc])
    · exact h2 (by rw [hc])
    · exact h3 (by rw [hc])

theorem lem_stripTrailJunk_noop (l : List Char)
    (hc : l.getLast? ≠ some ',')
    (hs : ∀ c, l.getLast? = some c → isSpaceJS c = false) :
    stripTrailJunk l = l := by
  unfold stripTrailJunk
  cases hrev : l.reverse with
  | nil =>
    have : l = [] := by
      have := congrArg List.reverse hrev
      simpa using this
    rw [this]
    rfl
  | cons c rest =>
    have hlast : l.getLast? = some c := by
      rw [← List.head?_reverse, hrev]
      rfl
    have hq : (c = ',' || isSpaceJS c) = false := by
      have h1 : c ≠ ',' := fun h => hc (h ▸ hlast)
      have h2 : isSpaceJS c = false := hs c hlast
      simp [h1, h2]
    rw [List.dropWhile_cons, hq]
    simp only [Bool.false_eq_true, if_false]
    rw [← hrev, List.reverse_reverse]

/-- C8 as amended: the extracted value equals the whitespace-trimmed span
verbatim whenever the trimmed span neither begins with one of the
separators comma/colon/hyphen (which the code strips from the front) nor
ends with a comma (which the code strips from the back); in particular
"fill email as ved@gmail.com" yields exactly "ved@gmail.com". -/
theorem claim_C8_value_preservation :
    (∀ t : List Char, ∀ sp ∈ valueSpans t,
      (trimJS sp).head? ≠ some ',' →
      (trimJS sp).head? ≠ some ':' →
      (trimJS sp).head? ≠ some '-' →
      (trimJS sp).getLast? ≠ some ',' →
      processVal sp = trimJS sp) ∧
    parseFill ("fill email as ved@gmail.com".data) =
      [⟨("email".data), ("ved@gmail.com".data)⟩] := by
  constructor
  · intro t sp _ h1 h2 h3 h4
    unfold processVal
    rw [lem_stripLeadSep_noop _ h1 h2 h3]
    exact lem_stripTrailJunk_noop _ h4 (lem_trim_last_not_space sp)
  · rfl

theorem claim_C8_value_preservation_witness :
    ("ved@gmail.com".data) ∈ valueSpans ("fill email as ved@gmail.com".data) ∧
    processVal ("ved@gmail.com".data) = trimJS ("ved@gmail.com".data) :=
  ⟨by decide,
    claim_C8_value_preservation.1 ("fill email as ved@gmail.com".data)
      ("ved@gmail.com".data) (by decide) (by decide) (by decide) (by decide) (by decide)⟩

/-- ASCII punctuation (the four ASCII ranges 0x21..0x2f, 0x3a..0x40,
0x5b..0x60 and 0x7b..0x7e), used to state the original claim's
"no trailing punctuation". -/
def isAsciiPunct (c : Char) : Bool :=
  (Nat.ble 0x21 c.toNat && Nat.ble c.toNat 0x2f) ||
  (Nat.ble 0x3a c.toNat && Nat.ble c.toNat 0x40) ||
  (Nat.ble 0x5b c.toNat && Nat.ble c.toNat 0x60) ||
  (Nat.ble 0x7b c.toNat && Nat.ble c.toNat 0x7e)

/-- C8 counterexample: in "fill name, Bob" the candidate value span is
", Bob" — it ends in the letter b (no trailing punctuation) and is
unchanged by whitespace trimming, yet the extracted value is "Bob": the
leading separator strip makes the span not preserved verbatim. -/
theorem claim_C8_cex :
    valueSpans ("fill name, Bob".data) = [(", Bob".data)] ∧
    (", Bob".data).getLast? = some 'b' ∧
    isAsciiPunct 'b' = false ∧
    trimJS ((", Bob".data)) = (", Bob".data) ∧
    rawOut ("fill name, Bob".data) = [⟨("name".data), ("Bob".data)⟩] ∧
    parseFill ("fill name, Bob".data) = [⟨("name".data), ("Bob".data)⟩] ∧
    ("Bob".data) ≠ (", Bob".data) := by
  refine ⟨by decide, rfl, rfl, by decide, by decide, by decide, by decide⟩

/-! ## C4 and C5: the Action Tag Parser -/

theorem lem_mem_filterMap_guard {α β : Type} (l : List α) (P : α → Prop)
    [DecidablePred P] (f : α → β) (b : β) :
    b ∈ l.filterMap (fun x => if P x then some (f x) else none) ↔
      ∃ x ∈ l, P x ∧ b = f x := by
  rw [List.mem_filterMap]
  constructor
  · rintro ⟨x, hx, hfx⟩
    by_cases hp : P x
    · rw [if_pos hp] at hfx
      exact ⟨x, hx, hp, (Option.some_inj.mp hfx).symm⟩
    · rw [if_neg hp] at hfx
      simp at hfx
  · rintro ⟨x, hx, hp, rfl⟩
    exact ⟨x, hx, by rw [if_pos hp]⟩

/-- C4: each fill_input payload occurrence is handled independently — the
emitted fill actions are the per-occurrence results in scan order, a
payload that fails JSON.parse produces no action and does not disturb the
others; a parsed payload with a truthy (non-empty) selector yields a
selector-based action with no allow-list check, otherwise a truthy field is
lowercased and accepted only when allow-listed; a missing value defaults to
the empty string. Concretely, a malformed payload followed by
field "NAME" / value "Bob" yields exactly the lowercased name action. -/
theorem claim_C4_fill_payload_handling :
    (∀ raw : List Char,
      extractFillActions raw = (fillPayloads raw).filterMap handleFill) ∧
    (∀ p : List Char, parseJson p = none → handleFill p = none) ∧
    (∀ p : List Char, ∀ obj : Json, parseJson p = some obj →
      selectorStrOf obj ≠ [] →
      handleFill p = some (.fill_selector (selectorStrOf obj) (valueOf obj))) ∧
    (∀ p : List Char, ∀ obj : Json, parseJson p = some obj →
      selectorStrOf obj = [] →
      handleFill p =
        (if fieldStrOf obj ≠ [] ∧ fieldStrOf obj ∈ allowedFieldsL
         then some (.fill_field (fieldStrOf obj) (valueOf obj)) else none)) ∧
    (∀ obj : Json, jprop obj ("value".data) = none → valueOf obj = .jstr []) ∧
    extractFillActions
        (("[ACTION:fill_input:\x7bbad\x7d][ACTION:fill_input:\x7b\"field\":\"NAME\",\"value\":\"Bob\"\x7d]".data)) =
      [.fill_field ("name".data) (.jstr ("Bob".data))] ∧
    extractFillActions
        (("[ACTION:fill_input:\x7b\"selector\":\"#x\",\"field\":\"bogus\",\"value\":\"V\"\x7d]".data)) =
      [.fill_selector ("#x".data) (.jstr ("V".data))] := by
  refine ⟨fun raw => rfl, ?_, ?_, ?_, ?_, rfl, rfl⟩
  · intro p hp
    unfold handleFill
    rw [hp]
  · intro p obj hp hsel
    unfold handleFill
    rw [hp]
    show (if selectorStrOf obj ≠ [] then _ else _) = _
    rw [if_pos hsel]
  · intro p obj hp hsel
    unfold handleFill
    rw [hp]
    show (if selectorStrOf obj ≠ [] then _ else _) = _
    rw [if_neg (by rw [hsel]; exact fun h => h rfl)]
  · intro obj hv
    unfold valueOf
    rw [hv]

theorem claim_C4_fill_payload_handling_witness :
    handleFill (("\x7bbad\x7d".data)) = none ∧
    handleFill (("\x7b\"selector\":\"#n\"\x7d".data)) =
      some (.fill_selector ("#n".data) (.jstr [])) ∧
    handleFill (("\x7b\"field\":\"NAME\",\"value\":\"Bob\"\x7d".data)) =
      some (.fill_field ("name".data) (.jstr ("Bob".data))) :=
  ⟨claim_C4_fill_payload_handling.2.1 _ rfl,
   claim_C4_fill_payload_handling.2.2.1 ("\x7b\"selector\":\"#n\"\x7d".data)
     (.jobj [(("selector".data), .jstr ("#n".data))]) rfl (by decide),
   claim_C4_fill_payload_handling.2.2.2.1 ("\x7b\"field\":\"NAME\",\"value\":\"Bob\"\x7d".data)
     (.jobj [(("field".data), .jstr ("NAME".data)), (("value".data), .jstr ("Bob".data))])
     rfl rfl⟩

/-- C5: a scroll_to_section action is emitted exactly for the occurrences
whose lowercased id is allow-listed, a scroll_page action exactly for the
occurrences whose lowercased direction is allow-listed; an occurrence that
fails its allow-list emits nothing, yet its tag is still stripped from the
display text (and an accepted occurrence is stripped too). -/
theorem claim_C5_scroll_allowlists :
    (∀ (raw : List Char) (a : UiAction),
      a ∈ extractSectionActions raw ↔
        ∃ id ∈ scanAll trySection raw.length raw,
          toLowerList id ∈ allowedSectionsL ∧
            a = UiAction.scroll_to_section (toLowerList id)) ∧
    (∀ (raw : List Char) (a : UiAction),
      a ∈ extractPageActions raw ↔
        ∃ d ∈ scanAll tryPage raw.length raw,
          toLowerList d ∈ allowedDirectionsL ∧
            a = UiAction.scroll_page (toLowerList d)) ∧
    scanAll trySection ("hello [ACTION:scroll_to_section:unknown_id] bye".data).length
        ("hello [ACTION:scroll_to_section:unknown_id] bye".data) = [("unknown_id".data)] ∧
    extractActions ("hello [ACTION:scroll_to_section:unknown_id] bye".data) = [] ∧
    cleanedTextOf ("hello [ACTION:scroll_to_section:unknown_id] bye".data) =
      ("hello  bye".data) ∧
    extractActions ("go [ACTION:scroll_to_section:projects] now".data) =
      [.scroll_to_section ("projects".data)] ∧
    cleanedTextOf ("go [ACTION:scroll_to_section:projects] now".data) = ("go  now".data) := by
  refine ⟨?_, ?_, by decide, rfl, rfl, rfl, rfl⟩
  · intro raw a
    exact lem_mem_filterMap_guard (scanAll trySection raw.length raw)
      (fun id => toLowerList id ∈ allowedSectionsL)
      (fun id => UiAction.scroll_to_section (toLowerList id)) a
  · intro raw a
    exact lem_mem_filterMap_guard (scanAll tryPage raw.length raw)
      (fun d => toLowerList d ∈ allowedDirectionsL)
      (fun d => UiAction.scroll_page (toLowerList d)) a

theorem claim_C5_scroll_allowlists_witness :
    UiAction.scroll_to_section ("projects".data) ∈
      extractSectionActions ("go [ACTION:scroll_to_section:projects] now".data) ∧
    (∀ a : UiAction,
      a ∉ extractSectionActions ("hello [ACTION:scroll_to_section:unknown_id] bye".data)) :=
  ⟨(claim_C5_scroll_allowlists.1 _ _).mpr
      ⟨("projects".data), by decide, by decide, rfl⟩,
   fun a ha => by
    obtain ⟨id, hid, hmem, -⟩ := (claim_C5_scroll_allowlists.1 _ a).mp ha
    have hs : scanAll trySection
        ("hello [ACTION:scroll_to_section:unknown_id] bye".data).length
        ("hello [ACTION:scroll_to_section:unknown_id] bye".data) = [("unknown_id".data)] :=
      claim_C5_scroll_allowlists.2.2.1
    rw [hs] at hid
    rw [List.eq_of_mem_singleton hid] at hmem
    exact absurd hmem (by decide)⟩

/-- C9: a model-derived selector-based fill never blocks a deterministic
field-based fill: the duplicate check compares only the field key (a
selector action contributes nothing to it), so whenever the model emitted
only a selector-based fill for some logical field the user also requested
deterministically, the final list keeps the selector action and gains the
deterministic field action — concretely shown for selector "#name" with
user message "fill name as Ved". -/
theorem claim_C9_selector_independent :
    (∀ (acts : List UiAction) (sel fld : List Char) (v : Json),
      hasFF (UiAction.fill_selector sel v :: acts) fld = hasFF acts fld) ∧
    (∀ raw um : List Char, ∀ x : FillIntent,
      x ∈ forcedFillsOf um → hasFF (extractActions raw) x.field = false →
      UiAction.fill_field x.field (.jstr x.value) ∈
          (processMessage (.ok raw) um).actions ∧
        ∀ a ∈ extractActions raw, a ∈ (processMessage (.ok raw) um).actions) ∧
    (processMessage
        (.ok ("[ACTION:fill_input:\x7b\"selector\":\"#name\",\"value\":\"Bob\"\x7d]".data))
        ("fill name as Ved".data)).actions =
      [.fill_selector ("#name".data) (.jstr ("Bob".data)),
       .fill_field ("name".data) (.jstr ("Ved".data))] := by
  refine ⟨?_, ?_, rfl⟩
  · intro acts sel fld v
    simp [hasFF, isFillFieldFor]
  · intro raw um x hx hno
    have hnd : ((forcedFillsOf um).map (·.field)).Nodup := by
      rw [lem_forced_eq]; exact lem_parseFill_nodup um
    have hmain : (processMessage (.ok raw) um).actions =
        extractActions raw ++
          ((forcedFillsOf um).filter (fun f => !hasFF (extractActions raw) f.field)).map
            (fun f => UiAction.fill_field f.field (.jstr f.value)) := by
      show (successResult raw um).actions = _
      unfold successResult
      exact lem_mergeForced_char _ _ hnd
    constructor
    · rw [hmain]
      apply List.mem_append_right
      apply List.mem_map.mpr
      refine ⟨x, ?_, rfl⟩
      apply List.mem_filter.mpr
      exact ⟨hx, by simp [hno]⟩
    · intro a ha
      rw [hmain]
      exact List.mem_append_left _ ha

theorem claim_C9_selector_independent_witness :
    UiAction.fill_field ("name".data) (.jstr ("Ved".data)) ∈
      (processMessage
        (.ok ("[ACTION:fill_input:\x7b\"selector\":\"#name\",\"value\":\"Bob\"\x7d]".data))
        ("fill name as Ved".data)).actions :=
  ((claim_C9_selector_independent.2.1
      ("[ACTION:fill_input:\x7b\"selector\":\"#name\",\"value\":\"Bob\"\x7d]".data)
      ("fill name as Ved".data)
      ⟨("name".data), ("Ved".data)⟩
      (by decide) rfl).1)

/-! ## C6: specification-side view of the history cleanup -/

/-- Keep the first turn of each run of consecutive same-role turns. -/
def firstOfRuns : List GTurn → List GTurn
  | [] => []
  | a :: rest => a :: firstOfRuns (rest.dropWhile (fun t => t.role = a.role))
termination_by l => l.length
decreasing_by
  simp only [List.length_cons]
  exact Nat.lt_succ_of_le (List.Sublist.length_le (List.dropWhile_sublist _))

/-- The collapse loop expressed relative to the role of the last kept turn. -/
def keepFirstFrom : List Char → List GTurn → List GTurn
  | _, [] => []
  | r, c :: rest =>
    if c.role = r then keepFirstFrom r rest else c :: keepFirstFrom c.role rest

/-- The input of the collapse step inside normalizeHistory: last six turns,
roles mapped, leading model turns dropped. -/
def normWindowInput (h : List Turn) : List GTurn :=
  ((lastN 6 h).map convTurn).dropWhile (fun t => t.role = ("model".data))

theorem lem_foldl_collapse (l : List GTurn) :
    ∀ (acc : List GTurn) (p : GTurn), acc.getLast? = some p →
      List.foldl (fun acc cur =>
        match acc.getLast? with
        | some q => if q.role = cur.role then acc else acc ++ [cur]
        | none => acc ++ [cur]) acc l = acc ++ keepFirstFrom p.role l := by
  induction l with
  | nil => intro acc p _; simp [keepFirstFrom]
  | cons cur rest ih =>
    intro acc p hp
    rw [List.foldl_cons]
    simp only [hp]
    by_cases hr : p.role = cur.role
    · rw [if_pos hr, ih acc p hp]
      have hk : keepFirstFrom p.role (cur :: rest) = keepFirstFrom p.role rest := by
        show (if cur.role = p.role then keepFirstFrom p.role rest
              else cur :: keepFirstFrom cur.role rest) = _
        rw [if_pos hr.symm]
      rw [hk]
    · rw [if_neg hr]
      have hlast : (acc ++ [cur]).getLast? = some cur := by simp
      rw [ih (acc ++ [cur]) cur hlast]
      have hk : keepFirstFrom p.role (cur :: rest) = cur :: keepFirstFrom cur.role rest := by
        show (if cur.role = p.role then keepFirstFrom p.role rest
              else cur :: keepFirstFrom cur.role rest) = _
        rw [if_neg (fun h => hr h.symm)]
      rw [hk, List.append_assoc]
      rfl

theorem lem_collapse_cons (a : GTurn) (rest : List GTurn) :
    collapseTurns (a :: rest) = a :: keepFirstFrom a.role rest := by
  unfold collapseTurns
  rw [List.foldl_cons]
  exact lem_foldl_collapse rest [a] a rfl

theorem lem_keepFirst_firstOfRuns (l : List GTurn) :
    ∀ r : List Char,
      keepFirstFrom r l = firstOfRuns (l.dropWhile (fun t => t.role = r)) := by
  induction l with
  | nil => intro r; simp [keepFirstFrom, firstOfRuns]
  | cons c rest ih =>
    intro r
    by_cases hc : c.role = r
    · have hd : (c :: rest).dropWhile (fun t => t.role = r) =
          rest.dropWhile (fun t => t.role = r) := by
        rw [List.dropWhile_cons, if_pos (by simp [hc])]
      rw [hd]
      show (if c.role = r then keepFirstFrom r rest
            else c :: keepFirstFrom c.role rest) = _
      rw [if_pos hc]
      exact ih r
    · have hd : (c :: rest).dropWhile (fun t => t.role = r) = c :: rest := by
        rw [List.dropWhile_cons, if_neg (by simp [hc])]
      rw [hd]
      show (if c.role = r then keepFirstFrom r rest
            else c :: keepFirstFrom c.role rest) = _
      rw [if_neg hc, firstOfRuns, ih c.role]

theorem lem_collapse_eq_firstOfRuns (l : List GTurn) :
    collapseTurns l = firstOfRuns l := by
  cases l with
  | nil => simp [collapseTurns, firstOfRuns]
  | cons a rest =>
    rw [lem_collapse_cons, lem_keepFirst_firstOfRuns, firstOfRuns]

theorem lem_firstOfRuns_head (l : List GTurn) : (firstOfRuns l).head? = l.head? := by
  cases l with
  | nil => simp [firstOfRuns]
  | cons a rest => rw [firstOfRuns]; rfl

theorem lem_firstOfRuns_sublist :
    ∀ (n : Nat) (l : List GTurn), l.length ≤ n → List.Sublist (firstOfRuns l) l := by
  intro n
  induction n with
  | zero =>
    intro l hl
    have h0 : l = [] := List.eq_nil_of_length_eq_zero (Nat.le_zero.mp hl)
    subst h0
    simp [firstOfRuns]
  | succ n ih =>
    intro l hl
    cases l with
    | nil => simp [firstOfRuns]
    | cons a rest =>
      rw [firstOfRuns]
      apply List.Sublist.cons₂
      have hdrop : (rest.dropWhile (fun t => t.role = a.role)).length ≤ n :=
        le_trans (List.Sublist.length_le (List.dropWhile_sublist _))
          (Nat.le_of_succ_le_succ hl)
      exact (ih _ hdrop).trans (List.dropWhile_sublist _)

theorem lem_firstOfRuns_chain :
    ∀ (n : Nat) (l : List GTurn), l.length ≤ n →
      List.Chain' (fun a b => a.role ≠ b.role) (firstOfRuns l) := by
  intro n
  induction n with
  | zero =>
    intro l hl
    have h0 : l = [] := List.eq_nil_of_length_eq_zero (Nat.le_zero.mp hl)
    subst h0
    simp [firstOfRuns]
  | succ n ih =>
    intro l hl
    cases l with
    | nil => simp [firstOfRuns]
    | cons a rest =>
      rw [firstOfRuns]
      rw [List.chain'_cons']
      constructor
      · intro b hb
        rw [lem_firstOfRuns_head] at hb
        have hbf := lem_dropWhile_head (fun t => t.role = a.role) rest b
          (Option.mem_def.mp hb)
        intro heq
        rw [decide_eq_false_iff_not] at hbf
        exact hbf heq.symm
      · apply ih
        exact le_trans (List.Sublist.length_le (List.dropWhile_sublist _))
          (Nat.le_of_succ_le_succ hl)

theorem lem_convTurn_role (tr : Turn) :
    (convTurn tr).role = ("model".data) ∨ (convTurn tr).role = ("user".data) := by
  unfold convTurn
  by_cases h : tr.role = ("assistant".data) <;> simp [h]

/-- C6: the normalized history window is a sub-sequence of the role-mapped
last six turns (so it holds at most 6 turns whose roles are only "model"
and "user", with assistant mapped to model and every other role to user);
it never begins with a model turn; consecutive roles strictly alternate;
it equals the first-of-each-run collapse of the window with leading model
turns dropped; and the empty log yields the (valid) empty window. -/
theorem claim_C6_history_normalization :
    (∀ h : List Turn,
      (normalizeHistory h).Sublist ((lastN 6 h).map convTurn) ∧
      (normalizeHistory h).length ≤ 6 ∧
      (∀ t : GTurn, (normalizeHistory h).head? = some t → t.role = ("user".data)) ∧
      (∀ t ∈ normalizeHistory h,
        t.role = ("model".data) ∨ t.role = ("user".data)) ∧
      List.Chain' (fun a b => a.role ≠ b.role) (normalizeHistory h) ∧
      normalizeHistory h = firstOfRuns (normWindowInput h)) ∧
    (∀ tr : Turn, (convTurn tr).role =
      if tr.role = ("assistant".data) then ("model".data) else ("user".data)) ∧
    normalizeHistory
        [⟨("assistant".data), ("a".data)⟩, ⟨("assistant".data), ("b".data)⟩,
         ⟨("user".data), ("c".data)⟩, ⟨("assistant".data), ("d".data)⟩] =
      [⟨("user".data), ("c".data)⟩, ⟨("model".data), ("d".data)⟩] ∧
    normalizeHistory ([] : List Turn) = [] := by
  refine ⟨?_, fun tr => rfl, rfl, rfl⟩
  intro h
  by_cases hemp : h.isEmpty
  · have h0 : h = [] := by
      cases h with
      | nil => rfl
      | cons a rest => simp [List.isEmpty] at hemp
    subst h0
    have hnorm : normalizeHistory [] = [] := rfl
    refine ⟨by rw [hnorm]; exact List.nil_sublist _, by rw [hnorm]; simp, ?_, ?_, ?_, ?_⟩
    · intro t ht; rw [hnorm] at ht; simp at ht
    · intro t ht; rw [hnorm] at ht; simp at ht
    · rw [hnorm]; simp
    · rw [hnorm]
      have hw : normWindowInput ([] : List Turn) = [] := rfl
      rw [hw]
      simp [firstOfRuns]
  · have hnorm : normalizeHistory h = collapseTurns (normWindowInput h) := by
      unfold normalizeHistory normWindowInput
      rw [if_neg hemp]
    have heq : normalizeHistory h = firstOfRuns (normWindowInput h) := by
      rw [hnorm, lem_collapse_eq_firstOfRuns]
    have hsub2 : List.Sublist (firstOfRuns (normWindowInput h)) (normWindowInput h) :=
      lem_firstOfRuns_sublist (normWindowInput h).length _ le_rfl
    have hsub1 : List.Sublist (normWindowInput h) ((lastN 6 h).map convTurn) :=
      List.dropWhile_sublist _
    have hsub : List.Sublist (normalizeHistory h) ((lastN 6 h).map convTurn) := by
      rw [heq]; exact hsub2.trans hsub1
    have hlen6 : ((lastN 6 h).map convTurn).length ≤ 6 := by
      rw [List.length_map]
      unfold lastN
      rw [List.length_drop]
      omega
    refine ⟨hsub, le_trans (List.Sublist.length_le hsub) hlen6, ?_, ?_, ?_, heq⟩
    · intro t ht
      rw [heq, lem_firstOfRuns_head] at ht
      have ht2 : (((lastN 6 h).map convTurn).dropWhile
          (fun t => t.role = ("model".data))).head? = some t := ht
      have hnm := lem_dropWhile_head (fun t : GTurn => t.role = ("model".data))
        ((lastN 6 h).map convTurn) t ht2
      have hne : t.role ≠ ("model".data) := by simpa using hnm
      have htm : t ∈ normWindowInput h :=
        List.mem_of_mem_head? (Option.mem_def.mpr ht)
      have htg1 : t ∈ (lastN 6 h).map convTurn := hsub1.subset htm
      obtain ⟨tr, -, htr⟩ := List.mem_map.mp htg1
      rcases lem_convTurn_role tr with hr | hr
      · rw [htr] at hr; exact absurd hr hne
      · rw [htr] at hr; exact hr
    · intro t ht
      have htg1 : t ∈ (lastN 6 h).map convTurn := hsub.subset ht
      obtain ⟨tr, -, htr⟩ := List.mem_map.mp htg1
      rcases lem_convTurn_role tr with hr | hr
      · rw [htr] at hr; exact Or.inl hr
      · rw [htr] at hr; exact Or.inr hr
    · rw [heq]
      exact lem_firstOfRuns_chain _ _ le_rfl

theorem claim_C6_history_normalization_witness :
    GTurn.role ⟨("user".data), ("c".data)⟩ = ("user".data) :=
  (claim_C6_history_normalization.1
      [⟨("assistant".data), ("a".data)⟩, ⟨("assistant".data), ("b".data)⟩,
       ⟨("user".data), ("c".data)⟩, ⟨("assistant".data), ("d".data)⟩]).2.2.1
    ⟨("user".data), ("c".data)⟩ rfl

/-- C7 as amended: when the model call throws, the current service's
processMessage catches the error and returns a Result whose actions is
empty and whose text is "Error: " followed by the error message (or
"Unknown error"), so "Error:" is a prefix of the text; the legacy
geminiService.js catch also returns empty actions, but its text is an
apology message that need not contain "Error:". -/
theorem claim_C7_error_result :
    ∀ (e : Option (List Char)) (um : List Char),
      (processMessage (.error e) um).actions = [] ∧
      (processMessage (.error e) um).text = errText e ∧
      (∃ rest : List Char,
        (processMessage (.error e) um).text = ("Error:".data) ++ rest) ∧
      (geminiCatchResult e).actions = [] := by
  intro e um
  refine ⟨rfl, rfl, ?_, rfl⟩
  show ∃ rest : List Char, errText e = ("Error:".data) ++ rest
  exact ⟨' ' :: (match e with
    | some m => if m.isEmpty then ("Unknown error".data) else m
    | none => ("Unknown error".data)), rfl⟩

/-- C7 counterexample: the claim asserts the error text always carries the
"Error:" prefix, citing both service files; but the legacy
geminiService.js catch, fed an authentication failure, returns
"I apologize, but I encountered an error. API key configuration issue." —
a text that does not contain "Error:" at all (actions are still empty). -/
theorem claim_C7_cex :
    (geminiCatchResult (some ("API_KEY invalid".data))).text =
      ("I apologize, but I encountered an error. API key configuration issue.".data) ∧
    (geminiCatchResult (some ("API_KEY invalid".data))).actions = [] ∧
    containsSub (geminiCatchResult (some ("API_KEY invalid".data))).text
      ("Error:".data) = false := by
  refine ⟨rfl, rfl, ?_⟩
  rfl
